import Mathlib

/-!
Verification of the `names` crate (`src/lib.rs`): a random name generator
combining an adjective, a noun and an optional numeric suffix.

The Rust code is shallowly embedded:
* Rust `String` is modelled as `List Char` (`RStr`); `String::len` is the
  UTF-8 byte count (`byteLen`), computed from each character's UTF-8 width
  (`charBytes`).
* the pluggable random source (`R: Rng`) is modelled as an infinite stream
  of naturals with a cursor (`Rng`): `gen_range(lo..=hi)` consumes one draw
  and maps it into the inclusive range, `SliceRandom::choose` consumes one
  draw and picks the corresponding index.  This realizes exactly the
  interface the crate demands of its random source.
* Rust panics (`String::truncate` off a char boundary, the `x - 1` usize
  underflow for a 0-digit suffix) are modelled as an explicit `panic`
  result; the unbounded `Length::Reroll` loop is modelled with explicit
  fuel, `diverge` marking fuel exhaustion.
* `char::to_uppercase` / `str::to_lowercase` are modelled on the ASCII
  fragment of Unicode case mapping (`Char.toUpper` / `Char.toLower`);
  non-ASCII letters map to themselves.  Every word and separator appearing
  in the claims is ASCII, where the two notions agree.
-/

namespace NamesCrate

/-- Rust `String` contents, as a list of Unicode scalar values. -/
abbrev RStr := List Char

/-- The UTF-8 encoding width in bytes of one Unicode scalar value
(how many bytes the character occupies inside a Rust `String`). -/
def charBytes (c : Char) : Nat :=
  if c.toNat < 128 then 1
  else if c.toNat < 2048 then 2
  else if c.toNat < 65536 then 3
  else 4

/-- Rust `String::len`: the UTF-8 byte length of the string. -/
def byteLen (s : RStr) : Nat := (s.map charBytes).sum

/-- The abstract random source: an infinite stream of naturals and a cursor.
Models the `R: Rng` type parameter; the crate only ever asks the source for
one bounded uniform draw at a time. -/
structure Rng where
  seq : Nat → Nat
  idx : Nat

/-- Consume one raw draw from the source, advancing the cursor. -/
def Rng.next (r : Rng) : Nat × Rng := (r.seq r.idx, ⟨r.seq, r.idx + 1⟩)

/-- Model of `rand`'s `Rng::gen_range(lo..=hi)`: one draw mapped into the inclusive
range `[lo, hi]` (meaningful when `lo ≤ hi`; the crate only calls it so). -/
def Rng.genRangeIncl (lo hi : Nat) (r : Rng) : Nat × Rng :=
  (lo + (Rng.next r).1 % (hi + 1 - lo), (Rng.next r).2)

/-- Model of `rand`'s `SliceRandom::choose`: `None` on an empty slice (consuming no
randomness), otherwise one draw selecting a uniform index below the
length. -/
def listChoose {α : Type} : List α → Rng → Option (α × Rng)
  | [], _ => none
  | x :: xs, r =>
    some ((x :: xs).get ⟨(Rng.next r).1 % (xs.length + 1),
            Nat.mod_lt _ (Nat.succ_pos _)⟩,
          (Rng.next r).2)

/-- Rust `enum NumberSeperator` (src/lib.rs:106-115). -/
inductive NumberSeperator where
  | dash
  | underscore
  | custom (s : RStr)
  | none
deriving DecidableEq

/-- The `Display` impl for `NumberSeperator` (src/lib.rs:145-157). -/
def NumberSeperator.render : NumberSeperator → RStr
  | .dash => "-".toList
  | .underscore => "_".toList
  | .custom s => s
  | .none => []

/-- Rust `enum Name` (src/lib.rs:87-96): the naming strategy. -/
inductive Name where
  | plain
  | numbered (digits : Nat) (sep : NumberSeperator)
  | zeroPaddedNumbered (digits : Nat) (sep : NumberSeperator)
deriving DecidableEq

/-- Rust `enum Length` (src/lib.rs:179-186): the length policy. -/
inductive Length where
  | truncate (n : Nat)
  | reroll (n : Nat)
  | none
deriving DecidableEq

/-- Rust `enum Casing` (src/lib.rs:195-218). -/
inductive Casing where
  | lowercase (sep : NumberSeperator)
  | uppercase (sep : NumberSeperator)
  | capitalize (sep : NumberSeperator)
  | capitalizeFirst (sep : NumberSeperator)
  | capitalizeLast (sep : NumberSeperator)
  | snakeCase
  | screamingSnakeCase
  | camelCase
  | pascalCase
  | kebabCase
  | screamingKebabCase
deriving DecidableEq

/-- Model of `str::to_lowercase`, on the ASCII fragment of Unicode case mapping. -/
def strToLower (s : RStr) : RStr := s.map Char.toLower

/-- Model of `str::to_uppercase`, on the ASCII fragment of Unicode case mapping. -/
def strToUpper (s : RStr) : RStr := s.map Char.toUpper

/-- The capitalization pattern repeated inside `Casing::apply`: empty word
stays empty, otherwise the first character is upper-cased and the remainder
lower-cased. -/
def capitalizeWord : RStr → RStr
  | [] => []
  | c :: cs => c.toUpper :: strToLower cs

/-- Model of `[&str]::join(sep)`: interleave the separator between the words. -/
def joinSep (sep : RStr) : List RStr → RStr
  | [] => []
  | [w] => w
  | w :: ws => w ++ sep ++ joinSep sep ws

/-- The body shared by the `Capitalize(sep)` arm of `Casing::apply` and the
`PascalCase` arm (which in the source delegates to
`Casing::Capitalize(NumberSeperator::None).apply`, src/lib.rs:309); it is
factored out here so the translation is not self-recursive. -/
def applyCapitalize (sep : NumberSeperator) (words : List RStr) : RStr :=
  joinSep sep.render (words.map capitalizeWord)

/-- Model of `Casing::apply` (src/lib.rs:244-313).  Note that the `Lowercase` /
`Uppercase` / snake / kebab arms case-convert the *joined* string, separator
included, exactly as `words.join(sep).to_lowercase()` does. -/
def Casing.apply : Casing → List RStr → RStr
  | .lowercase sep, words => strToLower (joinSep sep.render words)
  | .uppercase sep, words => strToUpper (joinSep sep.render words)
  | .capitalize sep, words => applyCapitalize sep words
  | .capitalizeFirst sep, words =>
    joinSep sep.render
      (words.mapIdx fun i w => if i = 0 then capitalizeWord w else strToLower w)
  | .capitalizeLast sep, words =>
    joinSep sep.render
      (words.mapIdx fun i w =>
        if i = words.length - 1 then capitalizeWord w else strToLower w)
  | .snakeCase, words => strToLower (joinSep ("_".toList) words)
  | .screamingSnakeCase, words => strToUpper (joinSep ("_".toList) words)
  | .camelCase, words =>
    joinSep []
      (words.mapIdx fun i w => if i = 0 then strToLower w else capitalizeWord w)
  | .pascalCase, words => applyCapitalize .none words
  | .kebabCase, words => strToLower (joinSep ("-".toList) words)
  | .screamingKebabCase, words => strToUpper (joinSep ("-".toList) words)

/-- The little-endian decimal digits of `n`, with an explicit structural
fuel bounding the recursion depth (one digit is emitted per step, so any
fuel `f` with `n < 10^f` is exact). -/
def natDigitsAux : Nat → Nat → List Nat
  | _, 0 => []
  | 0, _ + 1 => []
  | fuel + 1, n + 1 => (n + 1) % 10 :: natDigitsAux fuel ((n + 1) / 10)

/-- The decimal rendering of a `usize` value, as Rust's `Display` produces
it (no leading zeros; `0` renders as `"0"`).  The digit recursion carries
the fixed fuel 20, which is exact for every value below `10^20` — in
particular for every 64-bit `usize`, whose rendering has at most 20
digits; every number the embedded generator renders is below `2^64`. -/
def natToChars (n : Nat) : RStr :=
  if n = 0 then "0".toList
  else ((natDigitsAux 20 n).map Nat.digitChar).reverse

/-- The modulus of 64-bit `usize` arithmetic, `2^64`. -/
def USIZE : Nat := 18446744073709551616

/-- The modulus of `u32`, `2^32` (the `as u32` casts truncate to it). -/
def U32 : Nat := 4294967296

/-- Wrapping `usize` subtraction of 1: `0` wraps to `2^64 - 1` and every
other value decrements. -/
def wrapSub1 (a : Nat) : Nat := if a = 0 then USIZE - 1 else a - 1

/-- The lower bound `10usize.pow((x - 1) as u32)` of
`generate_number_with_x_digits` (src/lib.rs:572) in the release profile on
64-bit `usize`: the subtraction `x - 1` wraps modulo `2^64` (so `x = 0`
gives `2^64 - 1`), the `as u32` cast truncates modulo `2^32`, and the
power itself is computed with wrapping multiplication, i.e. modulo `2^64`
(any exponent ≥ 64 yields 0).  For `1 ≤ x ≤ 19` nothing wraps and this is
exactly `10^(x-1)`.  In debug builds `x = 0` panics at the subtraction and
`x ≥ 21` panics inside `pow` instead of wrapping. -/
def rangeLo (x : Nat) : Nat :=
  10 ^ (wrapSub1 (x % USIZE) % U32) % USIZE

/-- The upper bound `10usize.pow(x as u32) - 1` of
`generate_number_with_x_digits` (src/lib.rs:573) in the release profile:
wrapping power modulo `2^64` followed by a wrapping subtraction of 1.  For
`1 ≤ x ≤ 19` nothing wraps and this is exactly `10^x - 1`.  In debug
builds `x ≥ 20` panics inside `pow` instead of wrapping. -/
def rangeHi (x : Nat) : Nat :=
  wrapSub1 (10 ^ (x % USIZE % U32) % USIZE)

/-- Model of `generate_number_with_x_digits` (src/lib.rs:571-575) on
64-bit `usize`, release profile: draw uniformly from the inclusive range
`[rangeLo x, rangeHi x]`; `rand`'s `gen_range` panics on an empty range
(`none` here).  For `1 ≤ x ≤ 19` no computation overflows, both compile
profiles agree, and the draw is uniform from `[10^(x-1), 10^x - 1]`.
Outside that regime the profiles diverge: debug builds panic at the
overflow itself (`x = 0` and `x ≥ 20`), while in release `x = 20..23`
panics inside `gen_range` (the wrapped bounds are an empty range) and
e.g. `x = 0` or `x = 24` draw from wrapped ranges the documentation does
not anticipate (at `x = 24`, 18–19-digit numbers). -/
def generate_number_with_x_digits (x : Nat) (r : Rng) : Option (Nat × Rng) :=
  if rangeLo x ≤ rangeHi x then
    some (Rng.genRangeIncl (rangeLo x) (rangeHi x) r)
  else Option.none

/-- Rust's `format!("{:0>width$}", s, width = w)`: left-pad with `'0'` up to
width `w`. -/
def padLeftZeros (w : Nat) (s : RStr) : RStr :=
  List.replicate (w - s.length) '0' ++ s

/-- Model of `generate_padded_number_with_x_digits` (src/lib.rs:577-580): the same
draw as `generate_number_with_x_digits`, rendered left-padded with zeros to
width `x`. -/
def generate_padded_number_with_x_digits (x : Nat) (r : Rng) :
    Option (RStr × Rng) :=
  match generate_number_with_x_digits x r with
  | Option.none => Option.none
  | some (n, r') => some (padLeftZeros x (natToChars n), r')

/-- Model of `String::truncate(n)` (used at src/lib.rs:559): no-op when `n` is at
least the byte length, otherwise cut to the first `n` bytes; Rust panics
(`none` here) when `n` falls strictly inside a character's UTF-8
encoding. -/
def rustTruncate : RStr → Nat → Option RStr
  | _, 0 => some []
  | [], _ + 1 => some []
  | c :: cs, n + 1 =>
    if charBytes c ≤ n + 1 then
      (rustTruncate cs (n + 1 - charBytes c)).map (c :: ·)
    else Option.none

/-- The naming-strategy step of `Generator::next` (src/lib.rs:552-556):
append the rendered separator and the drawn number to the cased
combination.  `none` models the `digits = 0` panic. -/
def Name.applySuffix : Name → RStr → Rng → Option (RStr × Rng)
  | .plain, combined, r => some (combined, r)
  | .numbered x sep, combined, r =>
    match generate_number_with_x_digits x r with
    | Option.none => Option.none
    | some (n, r') => some (combined ++ sep.render ++ natToChars n, r')
  | .zeroPaddedNumbered x sep, combined, r =>
    match generate_padded_number_with_x_digits x r with
    | Option.none => Option.none
    | some (s, r') => some (combined ++ sep.render ++ s, r')

/-- Rust `struct Generator<R: Rng>` (src/lib.rs:421-444). -/
structure Generator where
  adjectives : List RStr
  nouns : List RStr
  naming : Name
  casing : Casing
  length : Length
  rng : Rng

/-- Outcome of one `Generator::next` call: `ok` is `Some(string)`, `nil` is
`None` (an empty word list), `panic` a Rust panic, and `diverge` marks
exhaustion of the explicit fuel bounding the `Length::Reroll` loop. -/
inductive NextResult where
  | ok (s : RStr)
  | nil
  | panic
  | diverge
deriving DecidableEq

/-- One attempt of `Generator::next` before the length policy
(src/lib.rs:548-556): choose an adjective and a noun, apply the casing, then
the naming suffix.  The carried `Rng` is the random-source state at that
point. -/
inductive StepResult where
  | nil (r : Rng)
  | panic (r : Rng)
  | str (s : RStr) (r : Rng)

/-- Lines 548-556 of `Generator::next`: the two `choose` calls (`?` on an
empty slice), `Casing::apply`, and the naming suffix. -/
def Generator.attempt (g : Generator) : StepResult :=
  match listChoose g.adjectives g.rng with
  | Option.none => .nil g.rng
  | some (adj, r1) =>
    match listChoose g.nouns r1 with
    | Option.none => .nil r1
    | some (noun, r2) =>
      match g.naming.applySuffix (g.casing.apply [adj, noun]) r2 with
      | Option.none => .panic r2
      | some (generated, r3) => .str generated r3

/-- Model of `Generator::next` (src/lib.rs:547-568).  The `Length::Reroll` arm's
`while generated.len() != x { generated = self.next()?; }` is the
recursion here, bounded by `fuel`; every other behavior is exact.  Only the
`rng` field of the returned generator ever differs from the input's. -/
def Generator.next (fuel : Nat) (g : Generator) : NextResult × Generator :=
  match g.attempt with
  | .nil r => (.nil, { g with rng := r })
  | .panic r => (.panic, { g with rng := r })
  | .str generated r3 =>
    match g.length with
    | .truncate x =>
      match rustTruncate generated x with
      | Option.none => (.panic, { g with rng := r3 })
      | some t => (.ok t, { g with rng := r3 })
    | .reroll x =>
      if byteLen generated = x then (.ok generated, { g with rng := r3 })
      else
        match fuel with
        | 0 => (.diverge, { g with rng := r3 })
        | fuel' + 1 => Generator.next fuel' { g with rng := r3 }
    | .none => (.ok generated, { g with rng := r3 })

/-- Modelled from the spec: the built-in English adjective corpus.  The word
lists are generated at build time into `OUT_DIR` by a build script that is
not part of `src/`; the spec only requires a non-empty list of words, so a
small non-empty placeholder stands in. -/
def ADJECTIVES : List RStr := ["rusty".toList, "pushy".toList]

/-- Modelled from the spec: the built-in English noun corpus (see
`ADJECTIVES`). -/
def NOUNS : List RStr := ["nail".toList, "pencil".toList]

/-- Rust `enum Error` (src/lib.rs:325-341). -/
inductive Error where
  | uninitializedField (name : RStr)
  | validationError (msg : RStr)
  | adjectivesEmpty
  | nounsEmpty
  | emptyIterator
deriving DecidableEq

/-- The `GeneratorBuilder` that `derive_builder` generates for
`Generator<R>`: every field is optional, to be defaulted (or, for `rng`,
required) at `build` time. -/
structure GeneratorBuilder where
  adjectives : Option (List RStr) := Option.none
  nouns : Option (List RStr) := Option.none
  naming : Option Name := Option.none
  casing : Option Casing := Option.none
  length : Option Length := Option.none
  rng : Option Rng := Option.none

/-- Model of `GeneratorBuilder::validate` (src/lib.rs:476-488): a *supplied* empty
adjectives list errors first, then a supplied empty nouns list; unset lists
are not checked (their defaults are non-empty). -/
def GeneratorBuilder.validate (b : GeneratorBuilder) : Except Error Unit :=
  match b.adjectives, b.nouns with
  | some [], _ => .error .adjectivesEmpty
  | _, some [] => .error .nounsEmpty
  | _, _ => .ok ()

/-- The `build` method `derive_builder` generates (with
`build_fn(validate = "Self::validate")`): run `validate`, then take each
field's value or its declared default.  The `rng` field carries no
`#[builder(default)]` attribute in the source (src/lib.rs:440-443), so an
unset `rng` is an `UninitializedField("rng")` error. -/
def GeneratorBuilder.build (b : GeneratorBuilder) : Except Error Generator :=
  match b.validate with
  | .error e => .error e
  | .ok () =>
    match b.rng with
    | Option.none => .error (.uninitializedField ("rng".toList))
    | some r =>
      .ok { adjectives := b.adjectives.getD ADJECTIVES
            nouns := b.nouns.getD NOUNS
            naming := b.naming.getD .plain
            casing := b.casing.getD (.lowercase .dash)
            length := b.length.getD Length.none
            rng := r }

/-- The error component of `build`, discarding a successful generator (the
generator holds a random source, which has no decidable equality). -/
def GeneratorBuilder.buildErr (b : GeneratorBuilder) : Option Error :=
  match b.build with
  | .error e => some e
  | .ok _ => Option.none

/-- The custom `Serialize` impl for `NumberSeperator` (src/lib.rs:158-167):
a `Custom` separator serializes to its own string, every other variant to
its `Display` rendering. -/
def NumberSeperator.serializeStr : NumberSeperator → RStr
  | .custom s => s
  | s => s.render

/-- The `FromStr` impl for `NumberSeperator` (src/lib.rs:122-134), which is
also its `Deserialize` (src/lib.rs:168-175): `"-"`, `"_"` and `""` map to
the named variants, anything else to `Custom`. -/
def NumberSeperator.fromStr (s : RStr) : NumberSeperator :=
  if s = "-".toList then .dash
  else if s = "_".toList then .underscore
  else if s = [] then NumberSeperator.none
  else .custom s

/-- Serialization followed by deserialization of one separator. -/
def NumberSeperator.roundTrip (s : NumberSeperator) : NumberSeperator :=
  NumberSeperator.fromStr s.serializeStr

/-- The serde round trip on a `Name`: the derived externally-tagged codec
preserves the variant and the `usize` exactly; the separator goes through
its custom string codec. -/
def Name.roundTrip : Name → Name
  | .plain => .plain
  | .numbered d s => .numbered d s.roundTrip
  | .zeroPaddedNumbered d s => .zeroPaddedNumbered d s.roundTrip

/-- The serde round trip on a `Casing`: the derived codec preserves the
variant; carried separators go through their custom string codec. -/
def Casing.roundTrip : Casing → Casing
  | .lowercase s => .lowercase s.roundTrip
  | .uppercase s => .uppercase s.roundTrip
  | .capitalize s => .capitalize s.roundTrip
  | .capitalizeFirst s => .capitalizeFirst s.roundTrip
  | .capitalizeLast s => .capitalizeLast s.roundTrip
  | c => c

/-- Serializing a `Generator` (derived `Serialize`, `rng` is
`#[serde(skip)]`, src/lib.rs:419-444) and deserializing the result through
`GeneratorJson` (src/lib.rs:349-361, 446-452).  All five configuration keys
are present in the serialized form, so none of `GeneratorJson`'s defaults
fire; word lists, `usize`s and variant tags round-trip exactly under
serde_json, and the only custom codec on the path is `NumberSeperator`'s.
The random source is not serialized: the deserializer installs a freshly
initialized one (`fresh`). -/
def Generator.serdeRoundTrip (g : Generator) (fresh : Rng) : Generator :=
  { adjectives := g.adjectives
    nouns := g.nouns
    naming := g.naming.roundTrip
    casing := g.casing.roundTrip
    length := g.length
    rng := fresh }

/-- A separator whose serialized string is not re-parsed into a different
variant: every named variant, and `Custom` strings other than `"-"`, `"_"`
and `""`. -/
def NumberSeperator.isCanonical : NumberSeperator → Bool
  | .custom s => !(s = "-".toList || s = "_".toList || s = [])
  | _ => true

/-- All separators carried by a naming strategy are canonical. -/
def Name.sepsCanonical : Name → Bool
  | .plain => true
  | .numbered _ s => s.isCanonical
  | .zeroPaddedNumbered _ s => s.isCanonical

/-- All separators carried by a casing are canonical. -/
def Casing.sepsCanonical : Casing → Bool
  | .lowercase s => s.isCanonical
  | .uppercase s => s.isCanonical
  | .capitalize s => s.isCanonical
  | .capitalizeFirst s => s.isCanonical
  | .capitalizeLast s => s.isCanonical
  | _ => true

/-- Numbered naming strategies carry between 1 and 19 digits: the regime
in which none of the 64-bit power computations of
`generate_number_with_x_digits` can overflow, so debug and release builds
agree and the drawn number has exactly `digits` decimal digits.  (`digits
= 0` and `digits ≥ 20` overflow: debug panics, release wraps.) -/
def Name.digitsOk : Name → Bool
  | .plain => true
  | .numbered d _ => 1 ≤ d && d ≤ 19
  | .zeroPaddedNumbered d _ => 1 ≤ d && d ≤ 19

/-- One attempt of the pipeline, whose cased adjective-noun combination has
byte length `casedLen`, can produce a string of byte length `n`: for the
numbered strategies this quantifies the drawn number over the (possibly
wrapped) draw range `[rangeLo d, rangeHi d]` — an empty range (the
release-profile `gen_range` panic) admits no length at all. -/
def attemptHasLen (nm : Name) (casedLen n : Nat) : Prop :=
  match nm with
  | .plain => n = casedLen
  | .numbered d sep =>
    ∃ num, rangeLo d ≤ num ∧ num ≤ rangeHi d ∧
      n = casedLen + byteLen sep.render + (natToChars num).length
  | .zeroPaddedNumbered d sep =>
    ∃ num, rangeLo d ≤ num ∧ num ≤ rangeHi d ∧
      n = casedLen + byteLen sep.render + (padLeftZeros d (natToChars num)).length

/-- A concrete deterministic random source for concrete instances: the
all-zero stream with the cursor at the start. -/
def rng0 : Rng := ⟨fun _ => 0, 0⟩

/-! ## General lemmas about the embedded operations -/

theorem charBytes_pos (c : Char) : 1 ≤ charBytes c := by
  unfold charBytes
  split
  · exact Nat.le_refl 1
  · split
    · omega
    · split <;> omega

theorem byteLen_nil : byteLen [] = 0 := rfl

theorem byteLen_cons (c : Char) (s : RStr) :
    byteLen (c :: s) = charBytes c + byteLen s := by
  simp [byteLen]

theorem byteLen_append (a b : RStr) :
    byteLen (a ++ b) = byteLen a + byteLen b := by
  simp [byteLen]

theorem byteLen_ascii (s : RStr) (h : ∀ c ∈ s, charBytes c = 1) :
    byteLen s = s.length := by
  induction s with
  | nil => rfl
  | cons c cs ih =>
    rw [byteLen_cons, h c (List.mem_cons_self c cs),
      ih fun d hd => h d (List.mem_cons_of_mem c hd)]
    simp
    omega

theorem digitChar_ascii : ∀ d < 10, charBytes (Nat.digitChar d) = 1 := by decide

theorem digitChar_nonzero_mem : ∀ d < 10, 0 < d →
    Nat.digitChar d ∈ ['1', '2', '3', '4', '5', '6', '7', '8', '9'] := by decide

theorem natDigitsAux_eq (f : Nat) : ∀ n : Nat, n < 10 ^ f →
    natDigitsAux f n = Nat.digits 10 n := by
  induction f with
  | zero =>
    intro n h
    have h0 : n = 0 := by simpa using h
    subst h0
    simp [natDigitsAux]
  | succ f ih =>
    intro n h
    rcases n with _ | n
    · simp [natDigitsAux]
    · have hdiv : (n + 1) / 10 < 10 ^ f := by
        rw [Nat.div_lt_iff_lt_mul (by norm_num : 0 < 10)]
        calc n + 1 < 10 ^ (f + 1) := h
          _ = 10 ^ f * 10 := by rw [Nat.pow_succ]
      show (n + 1) % 10 :: natDigitsAux f ((n + 1) / 10) = _
      rw [ih ((n + 1) / 10) hdiv,
        ← Nat.digits_def' (by norm_num : (1 : Nat) < 10) (Nat.succ_pos n)]

theorem natDigitsAux_lt (f : Nat) : ∀ n : Nat, ∀ d ∈ natDigitsAux f n, d < 10 := by
  induction f with
  | zero =>
    intro n d hd
    rcases n with _ | n <;> simp [natDigitsAux] at hd
  | succ f ih =>
    intro n d hd
    rcases n with _ | n
    · simp [natDigitsAux] at hd
    · simp only [natDigitsAux, List.mem_cons] at hd
      rcases hd with hd | hd
      · rw [hd]
        exact Nat.mod_lt _ (by norm_num)
      · exact ih _ d hd

theorem natToChars_length (n : Nat) (h : n ≠ 0) (h20 : n < 10 ^ 20) :
    (natToChars n).length = Nat.log 10 n + 1 := by
  unfold natToChars
  rw [if_neg h, natDigitsAux_eq 20 n h20]
  rw [List.length_reverse, List.length_map]
  exact Nat.digits_len 10 n (by norm_num) h

theorem natToChars_length_range (d n : Nat) (hd : 1 ≤ d) (hd19 : d ≤ 19)
    (h1 : 10 ^ (d - 1) ≤ n) (h2 : n < 10 ^ d) : (natToChars n).length = d := by
  have hn : n ≠ 0 := by
    have : 0 < 10 ^ (d - 1) := Nat.pos_pow_of_pos _ (by norm_num)
    omega
  have h20 : n < 10 ^ 20 :=
    lt_of_lt_of_le h2 (Nat.pow_le_pow_right (by norm_num) (by omega))
  have hlog : Nat.log 10 n = d - 1 := by
    apply Nat.log_eq_of_pow_le_of_lt_pow h1
    rw [Nat.sub_add_cancel hd]
    exact h2
  rw [natToChars_length n hn h20, hlog]
  omega

theorem natToChars_ascii (n : Nat) : ∀ c ∈ natToChars n, charBytes c = 1 := by
  intro c hc
  unfold natToChars at hc
  split at hc
  · simp at hc
    rw [hc]
    decide
  · rw [List.mem_reverse, List.mem_map] at hc
    obtain ⟨d, hd, rfl⟩ := hc
    exact digitChar_ascii d (natDigitsAux_lt 20 n d hd)

theorem byteLen_natToChars (n : Nat) :
    byteLen (natToChars n) = (natToChars n).length :=
  byteLen_ascii _ (natToChars_ascii n)

theorem natToChars_head (n : Nat) (h : n ≠ 0) (h20 : n < 10 ^ 20) :
    ∃ c rest, natToChars n = c :: rest ∧
      c ∈ ['1', '2', '3', '4', '5', '6', '7', '8', '9'] := by
  have hne : Nat.digits 10 n ≠ [] := Nat.digits_ne_nil_iff_ne_zero.mpr h
  have hd0 := Nat.getLast_digit_ne_zero 10 h
  have hmem : (Nat.digits 10 n).getLast (Nat.digits_ne_nil_iff_ne_zero.mpr h) ∈
      Nat.digits 10 n := List.getLast_mem _
  have hlt := Nat.digits_lt_base (by norm_num) hmem
  have hhead : (natToChars n).head? =
      some (Nat.digitChar ((Nat.digits 10 n).getLast
        (Nat.digits_ne_nil_iff_ne_zero.mpr h))) := by
    unfold natToChars
    rw [if_neg h, natDigitsAux_eq 20 n h20, List.head?_reverse,
      List.getLast?_map, List.getLast?_eq_getLast_of_ne_nil hne]
    rfl
  match hx : natToChars n with
  | [] => rw [hx] at hhead; exact absurd hhead (by simp)
  | c :: rest =>
    rw [hx] at hhead
    simp at hhead
    exact ⟨c, rest, rfl, hhead ▸ digitChar_nonzero_mem _ hlt (Nat.pos_of_ne_zero hd0)⟩

theorem padLeftZeros_of_length (w : Nat) (s : RStr) (h : s.length = w) :
    padLeftZeros w s = s := by
  unfold padLeftZeros
  rw [h, Nat.sub_self]
  rfl

theorem pow_le_pred_pow (x : Nat) (hx : 1 ≤ x) : 10 ^ (x - 1) ≤ 10 ^ x - 1 := by
  have h : 10 ^ x = 10 ^ (x - 1) * 10 := by
    conv_lhs => rw [← Nat.sub_add_cancel hx]
    rw [Nat.pow_succ]
  have hp : 1 ≤ 10 ^ (x - 1) := Nat.one_le_pow _ _ (by norm_num)
  omega

theorem rangeLo_exact (x : Nat) (h1 : 1 ≤ x) (h19 : x ≤ 19) :
    rangeLo x = 10 ^ (x - 1) := by
  have hU : x < USIZE := by unfold USIZE; omega
  unfold rangeLo wrapSub1
  rw [Nat.mod_eq_of_lt hU, if_neg (by omega : ¬x = 0)]
  have h4 : (x - 1) % U32 = x - 1 := Nat.mod_eq_of_lt (by unfold U32; omega)
  rw [h4]
  exact Nat.mod_eq_of_lt (lt_of_le_of_lt
    (Nat.pow_le_pow_right (by norm_num) (by omega : x - 1 ≤ 18))
    (by norm_num [USIZE]))

theorem rangeHi_exact (x : Nat) (h1 : 1 ≤ x) (h19 : x ≤ 19) :
    rangeHi x = 10 ^ x - 1 := by
  have hU : x < USIZE := by unfold USIZE; omega
  have h4 : x % U32 = x := Nat.mod_eq_of_lt (by unfold U32; omega)
  have hp : 10 ^ x < USIZE := lt_of_le_of_lt
    (Nat.pow_le_pow_right (by norm_num) h19) (by norm_num [USIZE])
  have h1p : 1 ≤ 10 ^ x := Nat.one_le_pow _ _ (by norm_num)
  unfold rangeHi wrapSub1
  rw [Nat.mod_eq_of_lt hU, h4, Nat.mod_eq_of_lt hp, if_neg (by omega : ¬10 ^ x = 0)]

theorem generate_number_spec (x : Nat) (r : Rng) (hx : 1 ≤ x) (h19 : x ≤ 19) :
    ∃ n, generate_number_with_x_digits x r = some (n, ⟨r.seq, r.idx + 1⟩) ∧
      10 ^ (x - 1) ≤ n ∧ n < 10 ^ x := by
  have hle := pow_le_pred_pow x hx
  have hp : 1 ≤ 10 ^ (x - 1) := Nat.one_le_pow _ _ (by norm_num)
  refine ⟨10 ^ (x - 1) + r.seq r.idx % (10 ^ x - 1 + 1 - 10 ^ (x - 1)),
    ?_, Nat.le_add_right _ _, ?_⟩
  · unfold generate_number_with_x_digits Rng.genRangeIncl Rng.next
    rw [rangeLo_exact x hx h19, rangeHi_exact x hx h19, if_pos hle]
  · have hm : r.seq r.idx % (10 ^ x - 1 + 1 - 10 ^ (x - 1)) <
        10 ^ x - 1 + 1 - 10 ^ (x - 1) := Nat.mod_lt _ (by omega)
    omega

theorem generate_number_some (x : Nat) (r : Rng) (n : Nat) (r' : Rng)
    (h : generate_number_with_x_digits x r = some (n, r')) :
    rangeLo x ≤ n ∧ n ≤ rangeHi x := by
  unfold generate_number_with_x_digits at h
  by_cases hc : rangeLo x ≤ rangeHi x
  · rw [if_pos hc] at h
    unfold Rng.genRangeIncl Rng.next at h
    simp only [Option.some.injEq, Prod.mk.injEq] at h
    obtain ⟨hn, _⟩ := h
    subst hn
    refine ⟨Nat.le_add_right _ _, ?_⟩
    have hm : r.seq r.idx % (rangeHi x + 1 - rangeLo x) <
        rangeHi x + 1 - rangeLo x := Nat.mod_lt _ (by omega)
    omega
  · rw [if_neg hc] at h
    exact Option.noConfusion h

theorem listChoose_spec {α : Type} (xs : List α) (r : Rng) (h : xs ≠ []) :
    ∃ a, listChoose xs r = some (a, ⟨r.seq, r.idx + 1⟩) ∧ a ∈ xs := by
  match xs with
  | [] => exact absurd rfl h
  | x :: xs =>
    refine ⟨(x :: xs).get ⟨(Rng.next r).1 % (xs.length + 1),
      Nat.mod_lt _ (Nat.succ_pos _)⟩, rfl, List.get_mem _ _ _⟩

theorem listChoose_singleton {α : Type} (a : α) (r : Rng) :
    listChoose [a] r = some (a, ⟨r.seq, r.idx + 1⟩) := by
  simp [listChoose, Rng.next]

theorem rustTruncate_of_le (s : RStr) (n : Nat) (h : byteLen s ≤ n) :
    rustTruncate s n = some s := by
  induction s generalizing n with
  | nil => cases n <;> rfl
  | cons c cs ih =>
    have hc := charBytes_pos c
    rw [byteLen_cons] at h
    match n with
    | 0 => omega
    | n + 1 =>
      unfold rustTruncate
      rw [if_pos (by omega), ih (n + 1 - charBytes c) (by omega)]
      rfl

theorem rustTruncate_take (t rest : RStr) :
    rustTruncate (t ++ rest) (byteLen t) = some t := by
  induction t with
  | nil =>
    show rustTruncate rest 0 = some []
    cases rest <;> rfl
  | cons c cs ih =>
    have hc := charBytes_pos c
    have hb : byteLen (c :: cs) = charBytes c + byteLen cs - 1 + 1 := by
      rw [byteLen_cons]; omega
    rw [hb]
    show rustTruncate (c :: (cs ++ rest)) _ = _
    unfold rustTruncate
    rw [if_pos (by omega)]
    have h2 : charBytes c + byteLen cs - 1 + 1 - charBytes c = byteLen cs := by
      omega
    rw [h2, ih]
    rfl

theorem rustTruncate_some (s : RStr) (n : Nat) (t : RStr)
    (h : rustTruncate s n = some t) :
    ∃ rest, s = t ++ rest ∧ byteLen t = min n (byteLen s) := by
  induction s generalizing n t with
  | nil =>
    have ht : t = [] := by
      cases n <;> (unfold rustTruncate at h; exact (Option.some.injEq _ _ ▸ h).symm)
    subst ht
    exact ⟨[], rfl, by simp [byteLen]⟩
  | cons c cs ih =>
    match n with
    | 0 =>
      have ht : t = [] := by
        unfold rustTruncate at h
        exact (Option.some.injEq _ _ ▸ h).symm
      subst ht
      exact ⟨c :: cs, rfl, by simp [byteLen]⟩
    | n + 1 =>
      unfold rustTruncate at h
      by_cases hcb : charBytes c ≤ n + 1
      · rw [if_pos hcb] at h
        rw [Option.map_eq_some'] at h
        obtain ⟨t', ht', rfl⟩ := h
        obtain ⟨rest, hsplit, hlen⟩ := ih (n + 1 - charBytes c) t' ht'
        refine ⟨rest, by rw [hsplit]; rfl, ?_⟩
        rw [byteLen_cons, byteLen_cons, hlen]
        have := charBytes_pos c
        omega
      · rw [if_neg hcb] at h
        exact Option.noConfusion h

theorem rustTruncate_none_iff (s : RStr) (n : Nat) :
    rustTruncate s n = Option.none ↔
      n < byteLen s ∧ ∀ t rest, s = t ++ rest → byteLen t ≠ n := by
  constructor
  · intro h
    constructor
    · by_contra hle
      rw [rustTruncate_of_le s n (by omega)] at h
      exact Option.noConfusion h
    · intro t rest hsplit hlen
      rw [hsplit, ← hlen, rustTruncate_take] at h
      exact Option.noConfusion h
  · intro hx
    obtain ⟨hlt, hnp⟩ := hx
    match hres : rustTruncate s n with
    | Option.none => rfl
    | some t =>
      obtain ⟨rest, hsplit, hlen⟩ := rustTruncate_some s n t hres
      exact absurd (by omega : byteLen t = n) (hnp t rest hsplit)

/-! ## Claim theorems -/

/-- Claim **C2** counterexample.  The claim says `Length::Truncate(n)` never fails
and always cuts at a character boundary, returning the first `n`
characters.  The code truncates at `n` *bytes*: on `"é"` (a 2-byte
character) with `n = 1`, Rust's `String::truncate` panics, and on `"éa"`
with `n = 2` it returns the first one character `"é"`, not the first two
characters. -/
theorem truncate_claim_counterexample :
    rustTruncate ("é".toList) 1 = Option.none ∧
      rustTruncate ("éa".toList) 2 = some ("é".toList) :=
  ⟨by decide, by decide⟩

/-- Claim **C2** (amended): applying `Length::Truncate(n)` leaves any string of
byte length ≤ `n` unchanged; when the string is longer, it succeeds exactly
when some prefix has byte length `n` (i.e. `n` is a character boundary), and
then returns that prefix — the first `n` bytes; when `n` falls strictly
inside a character's UTF-8 encoding the call panics. -/
theorem truncate_policy_spec (s : RStr) (n : Nat) :
    (byteLen s ≤ n → rustTruncate s n = some s)
    ∧ (∀ t, rustTruncate s n = some t →
        ∃ rest, s = t ++ rest ∧ byteLen t = min n (byteLen s))
    ∧ (rustTruncate s n = Option.none ↔
        n < byteLen s ∧ ∀ t rest, s = t ++ rest → byteLen t ≠ n) :=
  ⟨rustTruncate_of_le s n, fun t => rustTruncate_some s n t,
    rustTruncate_none_iff s n⟩

/-- Witness for `truncate_policy_spec` at a concrete input: truncating
`"ab"` to 5 bytes returns it unchanged. -/
theorem truncate_policy_spec_witness :
    rustTruncate ("ab".toList) 5 = some ("ab".toList) :=
  (truncate_policy_spec ("ab".toList) 5).1 (by decide)

/-- Claim **C7**: `Casing::apply` on `["foo", "bar"]` returns exactly `"FooBar"`
for `PascalCase`, `"fooBar"` for `CamelCase`, `"foo_bar"` for `SnakeCase`,
and `"FOO_BAR"` for `ScreamingSnakeCase`. -/
theorem casing_apply_fixed_examples :
    Casing.apply .pascalCase ["foo".toList, "bar".toList] = "FooBar".toList
    ∧ Casing.apply .camelCase ["foo".toList, "bar".toList] = "fooBar".toList
    ∧ Casing.apply .snakeCase ["foo".toList, "bar".toList] = "foo_bar".toList
    ∧ Casing.apply .screamingSnakeCase ["foo".toList, "bar".toList] =
        "FOO_BAR".toList :=
  ⟨by decide, by decide, by decide, by decide⟩

theorem joinSep_pair (sep w1 w2 : RStr) :
    joinSep sep [w1, w2] = w1 ++ sep ++ w2 := rfl

theorem attempt_imaginary_roll (r : Rng) :
    Generator.attempt ⟨[("imaginary".toList)], [("roll".toList)], .plain,
      .lowercase .dash, Length.none, r⟩ =
    .str ("imaginary-roll".toList) ⟨r.seq, r.idx + 2⟩ := by
  unfold Generator.attempt
  simp only [listChoose_singleton]
  simp only [Name.applySuffix]
  simp
  decide

/-- Claim **C4** counterexample.  The claim says `Casing::Lowercase(sep)`
lowercases both words and renders the separator *unchanged*.  The code
lowercases the joined string, separator included: with the custom separator
`"X"` on words `"a"`, `"b"` the code produces `"axb"`, not the claimed
`"aXb"`. -/
theorem lowercase_casing_counterexample :
    Casing.apply (.lowercase (.custom ("X".toList))) ["a".toList, "b".toList]
        = "axb".toList
    ∧ Casing.apply (.lowercase (.custom ("X".toList))) ["a".toList, "b".toList]
        ≠ "a".toList ++ "X".toList ++ "b".toList :=
  ⟨by decide, by decide⟩

/-- Claim **C4** (amended): `Casing::Lowercase(sep).apply` lowercases the joined
string, separator included; whenever the rendered separator is unchanged by
lowercasing — in particular for `Dash`, `Underscore` and `None`, which
contain no letters — this equals lowercasing both words and joining them
with the separator unchanged (dually for `Uppercase`); and a `Generator`
over adjectives `["imaginary"]` and nouns `["roll"]` with
`Casing::Lowercase(Dash)` always produces exactly `"imaginary-roll"`. -/
theorem lowercase_casing_spec :
    (∀ sep : NumberSeperator, ∀ w1 w2 : RStr,
        strToLower sep.render = sep.render →
        Casing.apply (.lowercase sep) [w1, w2] =
          strToLower w1 ++ sep.render ++ strToLower w2)
    ∧ (∀ sep : NumberSeperator, ∀ w1 w2 : RStr,
        strToUpper sep.render = sep.render →
        Casing.apply (.uppercase sep) [w1, w2] =
          strToUpper w1 ++ sep.render ++ strToUpper w2)
    ∧ (∀ r : Rng, ∀ fuel : Nat,
        (Generator.next fuel
          ⟨[("imaginary".toList)], [("roll".toList)], .plain,
            .lowercase .dash, Length.none, r⟩).1 =
          .ok ("imaginary-roll".toList)) := by
  refine ⟨?_, ?_, ?_⟩
  · intro sep w1 w2 h
    show strToLower (joinSep sep.render [w1, w2]) = _
    rw [joinSep_pair]
    unfold strToLower at h ⊢
    rw [List.map_append, List.map_append, h]
  · intro sep w1 w2 h
    show strToUpper (joinSep sep.render [w1, w2]) = _
    rw [joinSep_pair]
    unfold strToUpper at h ⊢
    rw [List.map_append, List.map_append, h]
  · intro r fuel
    unfold Generator.next
    rw [attempt_imaginary_roll]

/-- Witness for `lowercase_casing_spec`: the `Dash` separator is unchanged
by lowercasing, so the first part applies with concrete words. -/
theorem lowercase_casing_spec_witness :
    Casing.apply (.lowercase .dash) ["AB".toList, "Cd".toList] =
      strToLower ("AB".toList) ++ NumberSeperator.render .dash ++
        strToLower ("Cd".toList) :=
  lowercase_casing_spec.1 .dash ("AB".toList) ("Cd".toList) (by decide)

theorem sep_roundTrip_of_canonical (s : NumberSeperator)
    (h : s.isCanonical = true) : s.roundTrip = s := by
  cases s with
  | dash => decide
  | underscore => decide
  | none => decide
  | custom str =>
    simp only [NumberSeperator.isCanonical, Bool.not_eq_true',
      Bool.or_eq_false_iff, decide_eq_false_iff_not] at h
    obtain ⟨⟨h1, h2⟩, h3⟩ := h
    unfold NumberSeperator.roundTrip NumberSeperator.serializeStr
      NumberSeperator.fromStr
    rw [if_neg h1, if_neg h2, if_neg h3]

theorem name_roundTrip_of_canonical (nm : Name) (h : nm.sepsCanonical = true) :
    nm.roundTrip = nm := by
  cases nm with
  | plain => rfl
  | numbered d s =>
    show Name.numbered d s.roundTrip = Name.numbered d s
    rw [sep_roundTrip_of_canonical s h]
  | zeroPaddedNumbered d s =>
    show Name.zeroPaddedNumbered d s.roundTrip = Name.zeroPaddedNumbered d s
    rw [sep_roundTrip_of_canonical s h]

theorem casing_roundTrip_of_canonical (c : Casing)
    (h : c.sepsCanonical = true) : c.roundTrip = c := by
  cases c with
  | lowercase s =>
    show Casing.lowercase s.roundTrip = Casing.lowercase s
    rw [sep_roundTrip_of_canonical s h]
  | uppercase s =>
    show Casing.uppercase s.roundTrip = Casing.uppercase s
    rw [sep_roundTrip_of_canonical s h]
  | capitalize s =>
    show Casing.capitalize s.roundTrip = Casing.capitalize s
    rw [sep_roundTrip_of_canonical s h]
  | capitalizeFirst s =>
    show Casing.capitalizeFirst s.roundTrip = Casing.capitalizeFirst s
    rw [sep_roundTrip_of_canonical s h]
  | capitalizeLast s =>
    show Casing.capitalizeLast s.roundTrip = Casing.capitalizeLast s
    rw [sep_roundTrip_of_canonical s h]
  | snakeCase => rfl
  | screamingSnakeCase => rfl
  | camelCase => rfl
  | pascalCase => rfl
  | kebabCase => rfl
  | screamingKebabCase => rfl

/-- Claim **C8** counterexample.  Serialization renders `Custom("-")` as the bare
string `"-"`, which deserialization re-parses as `Dash`: a configuration
whose naming strategy is `Numbered(1, Custom("-"))` does not round-trip to
an identical `naming`. -/
theorem serde_round_trip_counterexample :
    (Generator.serdeRoundTrip
      ⟨[("a".toList)], [("b".toList)], .numbered 1 (.custom ("-".toList)),
        .lowercase .dash, Length.none, rng0⟩ rng0).naming =
      Name.numbered 1 .dash
    ∧ (Generator.serdeRoundTrip
      ⟨[("a".toList)], [("b".toList)], .numbered 1 (.custom ("-".toList)),
        .lowercase .dash, Length.none, rng0⟩ rng0).naming ≠
      Name.numbered 1 (.custom ("-".toList)) :=
  ⟨by decide, by decide⟩

/-- Claim **C8** (amended): serializing a Generator's configuration and
deserializing the result reconstructs a Generator with identical
`naming`, `casing`, `length`, `adjectives` and `nouns` (the random source
is excluded and re-initialized fresh), *provided* no `Custom` separator in
the configuration carries one of the strings `"-"`, `"_"`, `""` — such
separators are normalized to `Dash`, `Underscore` and `None`
respectively. -/
theorem serde_round_trip_spec (g : Generator) (fresh : Rng)
    (h1 : g.naming.sepsCanonical = true) (h2 : g.casing.sepsCanonical = true) :
    (g.serdeRoundTrip fresh).adjectives = g.adjectives
    ∧ (g.serdeRoundTrip fresh).nouns = g.nouns
    ∧ (g.serdeRoundTrip fresh).naming = g.naming
    ∧ (g.serdeRoundTrip fresh).casing = g.casing
    ∧ (g.serdeRoundTrip fresh).length = g.length :=
  ⟨rfl, rfl, name_roundTrip_of_canonical g.naming h1,
    casing_roundTrip_of_canonical g.casing h2, rfl⟩

/-- Witness for `serde_round_trip_spec`: a configuration with a genuinely
custom separator (`Custom("x")`) round-trips to identical fields. -/
theorem serde_round_trip_spec_witness :
    (Generator.serdeRoundTrip
        ⟨[("a".toList)], [("b".toList)], .numbered 2 (.custom ("x".toList)),
          .uppercase .underscore, Length.none, rng0⟩ rng0).adjectives =
      [("a".toList)]
    ∧ (Generator.serdeRoundTrip
        ⟨[("a".toList)], [("b".toList)], .numbered 2 (.custom ("x".toList)),
          .uppercase .underscore, Length.none, rng0⟩ rng0).nouns =
      [("b".toList)]
    ∧ (Generator.serdeRoundTrip
        ⟨[("a".toList)], [("b".toList)], .numbered 2 (.custom ("x".toList)),
          .uppercase .underscore, Length.none, rng0⟩ rng0).naming =
      .numbered 2 (.custom ("x".toList))
    ∧ (Generator.serdeRoundTrip
        ⟨[("a".toList)], [("b".toList)], .numbered 2 (.custom ("x".toList)),
          .uppercase .underscore, Length.none, rng0⟩ rng0).casing =
      .uppercase .underscore
    ∧ (Generator.serdeRoundTrip
        ⟨[("a".toList)], [("b".toList)], .numbered 2 (.custom ("x".toList)),
          .uppercase .underscore, Length.none, rng0⟩ rng0).length =
      Length.none :=
  serde_round_trip_spec
    ⟨[("a".toList)], [("b".toList)], .numbered 2 (.custom ("x".toList)),
      .uppercase .underscore, Length.none, rng0⟩ rng0 (by decide) (by decide)

theorem validate_ok (b : GeneratorBuilder) (ha : b.adjectives ≠ some [])
    (hn : b.nouns ≠ some []) : b.validate = .ok () := by
  unfold GeneratorBuilder.validate
  split <;> simp_all

theorem build_adjectives_empty (b : GeneratorBuilder)
    (h : b.adjectives = some []) : b.build = .error .adjectivesEmpty := by
  have hv : b.validate = .error .adjectivesEmpty := by
    unfold GeneratorBuilder.validate
    rw [h]
    rcases b.nouns with _ | l
    · rfl
    · cases l <;> rfl
  unfold GeneratorBuilder.build
  rw [hv]

theorem build_nouns_empty (b : GeneratorBuilder) (ha : b.adjectives ≠ some [])
    (h : b.nouns = some []) : b.build = .error .nounsEmpty := by
  have hv : b.validate = .error .nounsEmpty := by
    unfold GeneratorBuilder.validate
    rw [h]
    rcases hadj : b.adjectives with _ | l
    · rfl
    · cases l with
      | nil => exact absurd hadj ha
      | cons w ws => rfl
  unfold GeneratorBuilder.build
  rw [hv]

theorem build_ok (b : GeneratorBuilder) (r : Rng) (ha : b.adjectives ≠ some [])
    (hn : b.nouns ≠ some []) (hr : b.rng = some r) :
    b.build = .ok ⟨b.adjectives.getD ADJECTIVES, b.nouns.getD NOUNS,
      b.naming.getD .plain, b.casing.getD (.lowercase .dash),
      b.length.getD Length.none, r⟩ := by
  unfold GeneratorBuilder.build
  rw [validate_ok b ha hn, hr]

theorem build_rng_missing (b : GeneratorBuilder) (ha : b.adjectives ≠ some [])
    (hn : b.nouns ≠ some []) (hr : b.rng = Option.none) :
    b.build = .error (.uninitializedField ("rng".toList)) := by
  unfold GeneratorBuilder.build
  rw [validate_ok b ha hn, hr]

/-- Claim **C1** counterexample.  The claim says `build` succeeds whenever both
word collections are non-empty, applying defaults for every unset field.
But the generated builder's `rng` field has no default (src/lib.rs:440-443
carries no `#[builder(default)]`), so a builder with non-empty custom word
lists and an unset random source fails with `UninitializedField("rng")`. -/
theorem builder_rng_required_counterexample :
    GeneratorBuilder.buildErr
      ⟨some [("a".toList)], some [("b".toList)], Option.none, Option.none,
        Option.none, Option.none⟩ =
      some (.uninitializedField ("rng".toList)) := rfl

/-- Claim **C1** (amended): `build` succeeds — with defaults for every other
unset field — whenever both word collections are non-empty *and* the `rng`
field is set; with `rng` unset it fails with `UninitializedField("rng")`.
It fails with `AdjectivesEmpty` exactly when a supplied adjectives
collection is empty, and with `NounsEmpty` exactly when a supplied nouns
collection is empty and the adjectives collection is not supplied-empty
(the adjectives check runs first); in all failure cases no `Generator` is
constructed. -/
theorem builder_build_spec (b : GeneratorBuilder) :
    (∀ r : Rng, b.adjectives ≠ some [] → b.nouns ≠ some [] →
      b.rng = some r →
      b.build = .ok ⟨b.adjectives.getD ADJECTIVES, b.nouns.getD NOUNS,
        b.naming.getD .plain, b.casing.getD (.lowercase .dash),
        b.length.getD Length.none, r⟩)
    ∧ (b.adjectives ≠ some [] → b.nouns ≠ some [] →
        b.rng = Option.none →
        b.build = .error (.uninitializedField ("rng".toList)))
    ∧ (b.buildErr = some .adjectivesEmpty ↔ b.adjectives = some [])
    ∧ (b.buildErr = some .nounsEmpty ↔
        b.nouns = some [] ∧ b.adjectives ≠ some []) := by
  refine ⟨fun r ha hn hr => build_ok b r ha hn hr,
    fun ha hn hr => build_rng_missing b ha hn hr, ?_, ?_⟩
  · constructor
    · intro h
      by_contra ha
      by_cases hn : b.nouns = some []
      · unfold GeneratorBuilder.buildErr at h
        rw [build_nouns_empty b ha hn] at h
        simp at h
      · rcases hr : b.rng with _ | r
        · unfold GeneratorBuilder.buildErr at h
          rw [build_rng_missing b ha hn hr] at h
          simp at h
        · unfold GeneratorBuilder.buildErr at h
          rw [build_ok b r ha hn hr] at h
          simp at h
    · intro h
      unfold GeneratorBuilder.buildErr
      rw [build_adjectives_empty b h]
  · constructor
    · intro h
      by_cases ha : b.adjectives = some []
      · unfold GeneratorBuilder.buildErr at h
        rw [build_adjectives_empty b ha] at h
        simp at h
      · refine ⟨?_, ha⟩
        by_contra hn
        rcases hr : b.rng with _ | r
        · unfold GeneratorBuilder.buildErr at h
          rw [build_rng_missing b ha hn hr] at h
          simp at h
        · unfold GeneratorBuilder.buildErr at h
          rw [build_ok b r ha hn hr] at h
          simp at h
    · intro h
      unfold GeneratorBuilder.buildErr
      rw [build_nouns_empty b h.2 h.1]

/-- Witness for `builder_build_spec`: a builder supplying non-empty word
lists and a random source builds successfully, defaulting the remaining
fields. -/
theorem builder_build_spec_witness :
    GeneratorBuilder.build
      ⟨some [("a".toList)], some [("b".toList)], Option.none, Option.none,
        Option.none, some rng0⟩ =
      .ok ⟨[("a".toList)], [("b".toList)], .plain, .lowercase .dash,
        Length.none, rng0⟩ :=
  (builder_build_spec
    ⟨some [("a".toList)], some [("b".toList)], Option.none, Option.none,
      Option.none, some rng0⟩).1 rng0 (by decide) (by decide) rfl

theorem applySuffix_str (nm : Name) (combined : RStr) (r : Rng)
    (hd : nm.digitsOk = true) :
    ∃ s r', nm.applySuffix combined r = some (s, r') := by
  cases nm with
  | plain => exact ⟨combined, r, rfl⟩
  | numbered d sep =>
    have hd1 : 1 ≤ d ∧ d ≤ 19 := by simpa [Name.digitsOk] using hd
    obtain ⟨n, hgen, _, _⟩ := generate_number_spec d r hd1.1 hd1.2
    refine ⟨combined ++ sep.render ++ natToChars n, ⟨r.seq, r.idx + 1⟩, ?_⟩
    simp only [Name.applySuffix]
    rw [hgen]
  | zeroPaddedNumbered d sep =>
    have hd1 : 1 ≤ d ∧ d ≤ 19 := by simpa [Name.digitsOk] using hd
    obtain ⟨n, hgen, _, _⟩ := generate_number_spec d r hd1.1 hd1.2
    refine ⟨combined ++ sep.render ++ padLeftZeros d (natToChars n),
      ⟨r.seq, r.idx + 1⟩, ?_⟩
    simp only [Name.applySuffix, generate_padded_number_with_x_digits]
    rw [hgen]

theorem attempt_str (g : Generator) (ha : g.adjectives ≠ [])
    (hn : g.nouns ≠ []) (hd : g.naming.digitsOk = true) :
    ∃ s r', g.attempt = .str s r' := by
  obtain ⟨a, hca, hma⟩ := listChoose_spec g.adjectives g.rng ha
  obtain ⟨b, hcb, hmb⟩ := listChoose_spec g.nouns ⟨g.rng.seq, g.rng.idx + 1⟩ hn
  obtain ⟨s, r', hsuf⟩ := applySuffix_str g.naming (g.casing.apply [a, b])
    ⟨g.rng.seq, g.rng.idx + 1 + 1⟩ hd
  refine ⟨s, r', ?_⟩
  unfold Generator.attempt
  simp only [hca, hcb, hsuf]

theorem attempt_not_nil (g : Generator) (ha : g.adjectives ≠ [])
    (hn : g.nouns ≠ []) : ∀ r, g.attempt ≠ .nil r := by
  intro r
  obtain ⟨a, hca, _⟩ := listChoose_spec g.adjectives g.rng ha
  obtain ⟨b, hcb, _⟩ := listChoose_spec g.nouns ⟨g.rng.seq, g.rng.idx + 1⟩ hn
  unfold Generator.attempt
  simp only [hca, hcb]
  split <;> simp

theorem attempt_nil_of_empty (g : Generator)
    (h : g.adjectives = [] ∨ g.nouns = []) : ∃ r, g.attempt = .nil r := by
  unfold Generator.attempt
  rcases hx : g.adjectives with _ | ⟨a, as⟩
  · exact ⟨g.rng, rfl⟩
  · have hn : g.nouns = [] := by
      rcases h with h | h
      · rw [hx] at h; exact absurd h (by simp)
      · exact h
    rw [hn]
    exact ⟨_, rfl⟩

theorem attempt_numbered (g : Generator) (d : Nat) (sep : NumberSeperator)
    (hnm : g.naming = .numbered d sep) (hd : 1 ≤ d) (hd19 : d ≤ 19)
    (ha : g.adjectives ≠ []) (hn : g.nouns ≠ []) :
    ∃ adj noun num, adj ∈ g.adjectives ∧ noun ∈ g.nouns ∧
      10 ^ (d - 1) ≤ num ∧ num < 10 ^ d ∧
      g.attempt =
        .str (g.casing.apply [adj, noun] ++ sep.render ++ natToChars num)
          ⟨g.rng.seq, g.rng.idx + 3⟩ := by
  obtain ⟨a, hca, hma⟩ := listChoose_spec g.adjectives g.rng ha
  obtain ⟨b, hcb, hmb⟩ := listChoose_spec g.nouns ⟨g.rng.seq, g.rng.idx + 1⟩ hn
  obtain ⟨num, hgen, hlo, hhi⟩ :=
    generate_number_spec d ⟨g.rng.seq, g.rng.idx + 1 + 1⟩ hd hd19
  refine ⟨a, b, num, hma, hmb, hlo, hhi, ?_⟩
  unfold Generator.attempt
  simp only [hca, hcb, hnm, Name.applySuffix, hgen]

/-- Claim **C9**: every call to `next` leaves the word lists, the naming
strategy, the casing and the length policy of the `Generator` unchanged;
only the random source's state can differ in the generator the call leaves
behind. -/
theorem next_preserves_config (fuel : Nat) (g : Generator) :
    (Generator.next fuel g).2.adjectives = g.adjectives
    ∧ (Generator.next fuel g).2.nouns = g.nouns
    ∧ (Generator.next fuel g).2.naming = g.naming
    ∧ (Generator.next fuel g).2.casing = g.casing
    ∧ (Generator.next fuel g).2.length = g.length := by
  induction fuel generalizing g with
  | zero =>
    unfold Generator.next
    split
    · exact ⟨rfl, rfl, rfl, rfl, rfl⟩
    · exact ⟨rfl, rfl, rfl, rfl, rfl⟩
    · split
      · split
        · exact ⟨rfl, rfl, rfl, rfl, rfl⟩
        · exact ⟨rfl, rfl, rfl, rfl, rfl⟩
      · split
        · exact ⟨rfl, rfl, rfl, rfl, rfl⟩
        · exact ⟨rfl, rfl, rfl, rfl, rfl⟩
      · exact ⟨rfl, rfl, rfl, rfl, rfl⟩
  | succ fuel ih =>
    unfold Generator.next
    split
    · exact ⟨rfl, rfl, rfl, rfl, rfl⟩
    · exact ⟨rfl, rfl, rfl, rfl, rfl⟩
    · split
      · split
        · exact ⟨rfl, rfl, rfl, rfl, rfl⟩
        · exact ⟨rfl, rfl, rfl, rfl, rfl⟩
      · split
        · exact ⟨rfl, rfl, rfl, rfl, rfl⟩
        · exact ih _
      · exact ⟨rfl, rfl, rfl, rfl, rfl⟩

theorem next_nil_imp (fuel : Nat) (g : Generator)
    (h : (Generator.next fuel g).1 = .nil) :
    g.adjectives = [] ∨ g.nouns = [] := by
  induction fuel generalizing g with
  | zero =>
    unfold Generator.next at h
    rcases hat : g.attempt with r | r | ⟨s, r⟩ <;> simp only [hat] at h
    · by_contra hx
      push_neg at hx
      exact attempt_not_nil g hx.1 hx.2 r hat
    · simp at h
    · rcases hl : g.length with x | x | _ <;> simp only [hl] at h
      · split at h <;> simp at h
      · split at h <;> simp at h
      · simp at h
  | succ fuel ih =>
    unfold Generator.next at h
    rcases hat : g.attempt with r | r | ⟨s, r⟩ <;> simp only [hat] at h
    · by_contra hx
      push_neg at hx
      exact attempt_not_nil g hx.1 hx.2 r hat
    · simp at h
    · rcases hl : g.length with x | x | _ <;> simp only [hl] at h
      · split at h <;> simp at h
      · split at h
        · simp at h
        · exact ih ⟨g.adjectives, g.nouns, g.naming, g.casing,
            Length.reroll x, r⟩ h
      · simp at h

theorem next_nil_of_empty (fuel : Nat) (g : Generator)
    (h : g.adjectives = [] ∨ g.nouns = []) :
    (Generator.next fuel g).1 = .nil := by
  obtain ⟨r, hat⟩ := attempt_nil_of_empty g h
  unfold Generator.next
  rw [hat]

/-- Claim **C5** counterexample.  The claim says `next()` never fails for a
`Generator` built from a valid configuration (non-empty word lists).  This
`build` succeeds, yet the resulting generator's first `next()` panics:
`Length::Truncate(2)` cuts `"aé-bb"` in the middle of the 2-byte
character `'é'`, and Rust's `String::truncate` panics off a character
boundary. -/
theorem produce_next_counterexample :
    GeneratorBuilder.build
      ⟨some [("aé".toList)], some [("bb".toList)], some .plain,
        some (.lowercase .dash), some (.truncate 2), some rng0⟩ =
      .ok ⟨[("aé".toList)], [("bb".toList)], .plain, .lowercase .dash,
        .truncate 2, rng0⟩
    ∧ (Generator.next 0
        ⟨[("aé".toList)], [("bb".toList)], .plain, .lowercase .dash,
          .truncate 2, rng0⟩).1 = .panic :=
  ⟨rfl, by decide⟩

/-- Claim **C5** (amended): for every Generator whose word lists are
non-empty, whose numbered naming strategy (if any) has between 1 and 19
digits (the regime where the 64-bit power computations cannot overflow, so
debug and release builds agree), and whose length policy is `None`,
`next()` always returns a value; and `next()` returns "no value" (`None`,
end-of-sequence) exactly when one of the word collections is empty at call
time, whatever the rest of the configuration.  (Under `Truncate` the call
can panic on a multi-byte character boundary — see the counterexample —
under `Reroll` it can run forever, and `digits ≥ 20` panics inside the
suffix draw.) -/
theorem produce_next_spec (fuel : Nat) (g : Generator) :
    (g.adjectives ≠ [] → g.nouns ≠ [] → g.naming.digitsOk = true →
      g.length = Length.none → ∃ s, (Generator.next fuel g).1 = .ok s)
    ∧ ((Generator.next fuel g).1 = .nil ↔
        g.adjectives = [] ∨ g.nouns = []) := by
  refine ⟨?_, ⟨next_nil_imp fuel g, next_nil_of_empty fuel g⟩⟩
  intro ha hn hd hl
  obtain ⟨s, r', hstr⟩ := attempt_str g ha hn hd
  refine ⟨s, ?_⟩
  unfold Generator.next
  rw [hstr, hl]

/-- Witness for `produce_next_spec`: a generator over `["a"]`, `["b"]` with
plain naming and no length policy returns a value, and its `nil` condition
is equivalent to one of the (non-empty) lists being empty. -/
theorem produce_next_spec_witness :
    (∃ s, (Generator.next 0
      ⟨[("a".toList)], [("b".toList)], .plain, .lowercase .dash,
        Length.none, rng0⟩).1 = .ok s)
    ∧ ((Generator.next 0
      ⟨[("a".toList)], [("b".toList)], .plain, .lowercase .dash,
        Length.none, rng0⟩).1 = .nil ↔
      ([("a".toList)] : List RStr) = [] ∨ ([("b".toList)] : List RStr) = []) :=
  ⟨(produce_next_spec 0
      ⟨[("a".toList)], [("b".toList)], .plain, .lowercase .dash,
        Length.none, rng0⟩).1 (by decide) (by decide) (by decide) rfl,
    (produce_next_spec 0
      ⟨[("a".toList)], [("b".toList)], .plain, .lowercase .dash,
        Length.none, rng0⟩).2⟩

/-- Claim **C3** counterexample.  The claim quantifies over every
`digits ≥ 1`, but at `digits = 20` the 64-bit power computation of
`generate_number_with_x_digits` overflows: debug builds panic inside
`10usize.pow`, and in release the wrapped bounds
`[10^19, 10^20 mod 2^64 - 1]` form an empty range, so `gen_range` panics.
`next()` therefore appends no number at all. -/
theorem numbered_overflow_counterexample :
    (Generator.next 0
      ⟨[("a".toList)], [("b".toList)], .numbered 20 .dash, .lowercase .dash,
        Length.none, rng0⟩).1 = .panic := by decide

/-- Claim **C3** (amended): for every `1 ≤ digits ≤ 19` — the whole regime
in which the 64-bit power computations cannot overflow, where debug and
release builds agree — `Name::Numbered(digits, sep)` appends the rendered
separator followed by the decimal rendering of an integer drawn from
`[10^(digits-1), 10^digits - 1]` — a number of exactly `digits` decimal
digits whose first digit is in 1–9 — and the draw consumes only the
Generator's own random source: the resulting source is the same stream
advanced by exactly the three draws of the call (adjective, noun, number).
For `digits ≥ 20` the `usize` power overflows and no number with the
stated digit count is drawn.  Uniformity of the draw within the range is
delegated to `rand`'s `gen_range` contract on the pluggable source. -/
theorem numbered_suffix_spec (g : Generator) (d : Nat) (sep : NumberSeperator)
    (fuel : Nat) (hd : 1 ≤ d) (hd19 : d ≤ 19) (hnm : g.naming = .numbered d sep)
    (hl : g.length = Length.none) (ha : g.adjectives ≠ [])
    (hn : g.nouns ≠ []) :
    ∃ adj noun num, adj ∈ g.adjectives ∧ noun ∈ g.nouns ∧
      10 ^ (d - 1) ≤ num ∧ num ≤ 10 ^ d - 1 ∧
      (Generator.next fuel g).1 =
        .ok (g.casing.apply [adj, noun] ++ sep.render ++ natToChars num) ∧
      (natToChars num).length = d ∧
      (∃ c rest, natToChars num = c :: rest ∧
        c ∈ ['1', '2', '3', '4', '5', '6', '7', '8', '9']) ∧
      (Generator.next fuel g).2.rng = ⟨g.rng.seq, g.rng.idx + 3⟩ := by
  obtain ⟨adj, noun, num, hma, hmb, hlo, hhi, hat⟩ :=
    attempt_numbered g d sep hnm hd hd19 ha hn
  have hnum0 : num ≠ 0 := by
    have : 0 < 10 ^ (d - 1) := Nat.pos_pow_of_pos _ (by norm_num)
    omega
  have h20 : num < 10 ^ 20 :=
    lt_of_lt_of_le hhi (Nat.pow_le_pow_right (by norm_num) (by omega))
  have hnext : Generator.next fuel g =
      (.ok (g.casing.apply [adj, noun] ++ sep.render ++ natToChars num),
        { g with rng := ⟨g.rng.seq, g.rng.idx + 3⟩ }) := by
    unfold Generator.next
    rw [hat, hl]
  refine ⟨adj, noun, num, hma, hmb, hlo, by omega, ?_, ?_, ?_, ?_⟩
  · rw [hnext]
  · exact natToChars_length_range d num hd hd19 hlo hhi
  · exact natToChars_head num hnum0 h20
  · rw [hnext]

/-- Witness for `numbered_suffix_spec`: a concrete generator with
`Numbered(4, Dash)` naming. -/
theorem numbered_suffix_spec_witness :
    ∃ adj noun num,
      adj ∈ ([("a".toList)] : List RStr) ∧ noun ∈ ([("b".toList)] : List RStr) ∧
      10 ^ (4 - 1) ≤ num ∧ num ≤ 10 ^ 4 - 1 ∧
      (Generator.next 0
        ⟨[("a".toList)], [("b".toList)], .numbered 4 .dash, .lowercase .dash,
          Length.none, rng0⟩).1 =
        .ok (Casing.apply (.lowercase .dash) [adj, noun] ++
          NumberSeperator.render .dash ++ natToChars num) ∧
      (natToChars num).length = 4 ∧
      (∃ c rest, natToChars num = c :: rest ∧
        c ∈ ['1', '2', '3', '4', '5', '6', '7', '8', '9']) ∧
      (Generator.next 0
        ⟨[("a".toList)], [("b".toList)], .numbered 4 .dash, .lowercase .dash,
          Length.none, rng0⟩).2.rng = ⟨rng0.seq, rng0.idx + 3⟩ :=
  numbered_suffix_spec
    ⟨[("a".toList)], [("b".toList)], .numbered 4 .dash, .lowercase .dash,
      Length.none, rng0⟩ 4 .dash 0 (by decide) (by decide) rfl rfl (by decide)
    (by decide)

theorem byteLen_padLeft_natToChars (w n : Nat) :
    byteLen (padLeftZeros w (natToChars n)) =
      (padLeftZeros w (natToChars n)).length := by
  apply byteLen_ascii
  intro c hc
  unfold padLeftZeros at hc
  rw [List.mem_append] at hc
  rcases hc with hc | hc
  · rw [List.eq_of_mem_replicate hc]
    decide
  · exact natToChars_ascii n c hc

theorem applySuffix_hasLen (nm : Name) (combined : RStr) (r : Rng)
    (gen : RStr) (r' : Rng) (h : nm.applySuffix combined r = some (gen, r')) :
    attemptHasLen nm (byteLen combined) (byteLen gen) := by
  cases nm with
  | plain =>
    simp only [Name.applySuffix, Option.some.injEq, Prod.mk.injEq] at h
    show byteLen gen = byteLen combined
    rw [h.1]
  | numbered d sep =>
    rcases hgen : generate_number_with_x_digits d r with _ | ⟨num, r2⟩
    · simp only [Name.applySuffix, hgen] at h
      exact Option.noConfusion h
    · simp only [Name.applySuffix, hgen, Option.some.injEq,
        Prod.mk.injEq] at h
      obtain ⟨hs, _⟩ := h
      obtain ⟨hlo, hhi⟩ := generate_number_some d r num r2 hgen
      refine ⟨num, hlo, hhi, ?_⟩
      rw [← hs, byteLen_append, byteLen_append, byteLen_natToChars]
  | zeroPaddedNumbered d sep =>
    rcases hgen : generate_number_with_x_digits d r with _ | ⟨num, r2⟩
    · simp only [Name.applySuffix, generate_padded_number_with_x_digits,
        hgen] at h
      exact Option.noConfusion h
    · simp only [Name.applySuffix, generate_padded_number_with_x_digits,
        hgen, Option.some.injEq, Prod.mk.injEq] at h
      obtain ⟨hs, _⟩ := h
      obtain ⟨hlo, hhi⟩ := generate_number_some d r num r2 hgen
      refine ⟨num, hlo, hhi, ?_⟩
      rw [← hs, byteLen_append, byteLen_append, byteLen_padLeft_natToChars]

theorem attempt_str_words (g : Generator) (gen : RStr) (r' : Rng)
    (hat : g.attempt = .str gen r') :
    ∃ a b r2, a ∈ g.adjectives ∧ b ∈ g.nouns ∧
      g.naming.applySuffix (g.casing.apply [a, b]) r2 = some (gen, r') := by
  by_cases ha : g.adjectives = []
  · obtain ⟨r0, hnil⟩ := attempt_nil_of_empty g (Or.inl ha)
    rw [hnil] at hat
    exact StepResult.noConfusion hat
  by_cases hb : g.nouns = []
  · obtain ⟨r0, hnil⟩ := attempt_nil_of_empty g (Or.inr hb)
    rw [hnil] at hat
    exact StepResult.noConfusion hat
  obtain ⟨a, hca, hma⟩ := listChoose_spec g.adjectives g.rng ha
  obtain ⟨b, hcb, hmb⟩ := listChoose_spec g.nouns ⟨g.rng.seq, g.rng.idx + 1⟩ hb
  unfold Generator.attempt at hat
  simp only [hca, hcb] at hat
  rcases hsuf : g.naming.applySuffix (g.casing.apply [a, b])
      ⟨g.rng.seq, g.rng.idx + 1 + 1⟩ with _ | ⟨s, r3⟩
  · simp only [hsuf] at hat
    exact StepResult.noConfusion hat
  · simp only [hsuf, StepResult.str.injEq] at hat
    obtain ⟨hs, hr⟩ := hat
    subst hs
    subst hr
    exact ⟨a, b, ⟨g.rng.seq, g.rng.idx + 1 + 1⟩, hma, hmb, hsuf⟩

theorem reroll_ok_len (x : Nat) (fuel : Nat) (g : Generator) (s : RStr)
    (hl : g.length = .reroll x) (h : (Generator.next fuel g).1 = .ok s) :
    byteLen s = x := by
  induction fuel generalizing g with
  | zero =>
    unfold Generator.next at h
    rcases hat : g.attempt with r | r | ⟨gen, r⟩ <;> simp only [hat] at h
    · exact NextResult.noConfusion h
    · exact NextResult.noConfusion h
    · simp only [hl] at h
      split at h
      · rename_i hcond
        simp only [NextResult.ok.injEq] at h
        rw [← h]
        exact hcond
      · simp at h
  | succ fuel ih =>
    unfold Generator.next at h
    rcases hat : g.attempt with r | r | ⟨gen, r⟩ <;> simp only [hat] at h
    · exact NextResult.noConfusion h
    · exact NextResult.noConfusion h
    · simp only [hl] at h
      split at h
      · rename_i hcond
        simp only [NextResult.ok.injEq] at h
        rw [← h]
        exact hcond
      · exact ih ⟨g.adjectives, g.nouns, g.naming, g.casing,
          Length.reroll x, r⟩ rfl h

theorem reroll_unachievable (x : Nat) (fuel : Nat) (g : Generator)
    (s : RStr) (hl : g.length = .reroll x)
    (hno : ∀ a ∈ g.adjectives, ∀ b ∈ g.nouns,
      ¬ attemptHasLen g.naming (byteLen (g.casing.apply [a, b])) x) :
    (Generator.next fuel g).1 ≠ .ok s := by
  induction fuel generalizing g with
  | zero =>
    intro h
    unfold Generator.next at h
    rcases hat : g.attempt with r | r | ⟨gen, r⟩ <;> simp only [hat] at h
    · exact NextResult.noConfusion h
    · exact NextResult.noConfusion h
    · simp only [hl] at h
      have hlen : byteLen gen ≠ x := by
        obtain ⟨a, b, r2, hma, hmb, hsuf⟩ := attempt_str_words g gen r hat
        have hal := applySuffix_hasLen g.naming _ r2 gen _ hsuf
        intro hx
        rw [hx] at hal
        exact hno a hma b hmb hal
      rw [if_neg hlen] at h
      simp at h
  | succ fuel ih =>
    intro h
    unfold Generator.next at h
    rcases hat : g.attempt with r | r | ⟨gen, r⟩ <;> simp only [hat] at h
    · exact NextResult.noConfusion h
    · exact NextResult.noConfusion h
    · simp only [hl] at h
      have hlen : byteLen gen ≠ x := by
        obtain ⟨a, b, r2, hma, hmb, hsuf⟩ := attempt_str_words g gen r hat
        have hal := applySuffix_hasLen g.naming _ r2 gen _ hsuf
        intro hx
        rw [hx] at hal
        exact hno a hma b hmb hal
      rw [if_neg hlen] at h
      exact ih ⟨g.adjectives, g.nouns, g.naming, g.casing,
        Length.reroll x, r⟩ rfl hno h

/-- Claim **C6**: under `Length::Reroll(n)`, every value `next()` returns has
(byte) length exactly `n`; and when no adjective/noun combination can
produce an attempt of length `n` — achievability quantifying the numeric
suffix over the naming strategy's actual (possibly wrapped) 64-bit draw
range, via `attemptHasLen` — `next()` never returns a value no matter how
much fuel the reroll loop is given: each attempt regenerates an entirely
new combination through the whole pipeline, consuming fresh randomness,
and rerolls again. -/
theorem reroll_policy_spec (x : Nat) :
    (∀ fuel g (s : RStr), g.length = .reroll x →
      (Generator.next fuel g).1 = .ok s → byteLen s = x)
    ∧ (∀ fuel g (s : RStr), g.length = .reroll x →
      (∀ a ∈ g.adjectives, ∀ b ∈ g.nouns,
        ¬ attemptHasLen g.naming (byteLen (g.casing.apply [a, b])) x) →
      (Generator.next fuel g).1 ≠ .ok s) :=
  ⟨fun fuel g s hl h => reroll_ok_len x fuel g s hl h,
    fun fuel g s hl hno => reroll_unachievable x fuel g s hl hno⟩

/-- Witness for `reroll_policy_spec`: with word lists `["a"]`, `["b"]` and
plain naming every attempt is `"a-b"` of byte length 3, so `Reroll(1)`
never returns, at any tried fuel. -/
theorem reroll_policy_spec_witness :
    (Generator.next 5
      ⟨[("a".toList)], [("b".toList)], .plain, .lowercase .dash,
        .reroll 1, rng0⟩).1 ≠ .ok ("a-b".toList) :=
  (reroll_policy_spec 1).2 5
    ⟨[("a".toList)], [("b".toList)], .plain, .lowercase .dash,
      .reroll 1, rng0⟩ ("a-b".toList) rfl
    (by
      intro a ha b hb
      simp only [List.mem_singleton] at ha hb
      subst ha
      subst hb
      simp only [attemptHasLen]
      decide)

theorem applySuffix_zeroPadded_eq (d : Nat) (sep : NumberSeperator)
    (hd : 1 ≤ d) (hd19 : d ≤ 19) (combined : RStr) (r : Rng) :
    Name.applySuffix (.zeroPaddedNumbered d sep) combined r =
      Name.applySuffix (.numbered d sep) combined r := by
  obtain ⟨n, hgen, hlo, hhi⟩ := generate_number_spec d r hd hd19
  simp only [Name.applySuffix, generate_padded_number_with_x_digits, hgen]
  rw [padLeftZeros_of_length d _ (natToChars_length_range d n hd hd19 hlo hhi)]

theorem attempt_zeroPadded_eq (adjs nouns : List RStr) (cas : Casing)
    (len : Length) (r : Rng) (d : Nat) (sep : NumberSeperator) (hd : 1 ≤ d)
    (hd19 : d ≤ 19) :
    Generator.attempt ⟨adjs, nouns, .zeroPaddedNumbered d sep, cas, len, r⟩ =
      Generator.attempt ⟨adjs, nouns, .numbered d sep, cas, len, r⟩ := by
  unfold Generator.attempt
  simp only [applySuffix_zeroPadded_eq d sep hd hd19]

/-- Claim **C10** counterexample.  At `digits = 24` the release-profile
wrapped bounds form the non-empty range
`[200376420520689664, 2003764205206896639]` of 18-19-digit numbers: the
all-zero source draws `200376420520689664` (18 digits), which
`ZeroPaddedNumbered` left-pads with six zeros to width 24 while `Numbered`
appends unpadded — the outputs differ and a leading zero does occur.
(Debug builds panic at the power overflow instead, drawing no number.) -/
theorem zeroPadded_overflow_counterexample :
    (Generator.next 0
      ⟨[("a".toList)], [("b".toList)], .zeroPaddedNumbered 24 .dash,
        .lowercase .dash, Length.none, rng0⟩).1 ≠
    (Generator.next 0
      ⟨[("a".toList)], [("b".toList)], .numbered 24 .dash,
        .lowercase .dash, Length.none, rng0⟩).1 := by decide

/-- Claim **C10** (amended): for every `1 ≤ digits ≤ 19` — the whole
regime in which the 64-bit power computations cannot overflow — and every
separator, `Name::ZeroPaddedNumbered(digits, sep)` produces exactly the
same output as `Name::Numbered(digits, sep)` from the same random-source
state, and leaves the source in the same state: the drawn number always
has exactly `digits` decimal digits, so left zero-padding to width
`digits` never adds a character.  For `digits ≥ 20` the `usize` power
wraps (release) or panics (debug); at `digits = 24` in release the two
strategies produce different strings. -/
theorem zeroPadded_refines_numbered (fuel : Nat) (adjs nouns : List RStr)
    (cas : Casing) (len : Length) (r : Rng) (d : Nat) (sep : NumberSeperator)
    (hd : 1 ≤ d) (hd19 : d ≤ 19) :
    (Generator.next fuel
        ⟨adjs, nouns, .zeroPaddedNumbered d sep, cas, len, r⟩).1 =
      (Generator.next fuel ⟨adjs, nouns, .numbered d sep, cas, len, r⟩).1
    ∧ (Generator.next fuel
        ⟨adjs, nouns, .zeroPaddedNumbered d sep, cas, len, r⟩).2.rng =
      (Generator.next fuel ⟨adjs, nouns, .numbered d sep, cas, len, r⟩).2.rng
    := by
  induction fuel generalizing r with
  | zero =>
    unfold Generator.next
    rw [attempt_zeroPadded_eq adjs nouns cas len r d sep hd hd19]
    rcases hat : Generator.attempt ⟨adjs, nouns, .numbered d sep, cas, len, r⟩
      with r' | r' | ⟨s, r'⟩
    · exact ⟨rfl, rfl⟩
    · exact ⟨rfl, rfl⟩
    · rcases len with x | x | _
      · dsimp only
        rcases htr : rustTruncate s x with _ | t <;> exact ⟨rfl, rfl⟩
      · dsimp only
        by_cases hbl : byteLen s = x
        · rw [if_pos hbl, if_pos hbl]
          exact ⟨rfl, rfl⟩
        · rw [if_neg hbl, if_neg hbl]
          exact ⟨rfl, rfl⟩
      · exact ⟨rfl, rfl⟩
  | succ fuel ih =>
    unfold Generator.next
    rw [attempt_zeroPadded_eq adjs nouns cas len r d sep hd hd19]
    rcases hat : Generator.attempt ⟨adjs, nouns, .numbered d sep, cas, len, r⟩
      with r' | r' | ⟨s, r'⟩
    · exact ⟨rfl, rfl⟩
    · exact ⟨rfl, rfl⟩
    · rcases len with x | x | _
      · dsimp only
        rcases htr : rustTruncate s x with _ | t <;> exact ⟨rfl, rfl⟩
      · dsimp only
        by_cases hbl : byteLen s = x
        · rw [if_pos hbl, if_pos hbl]
          exact ⟨rfl, rfl⟩
        · rw [if_neg hbl, if_neg hbl]
          exact ih r'
      · exact ⟨rfl, rfl⟩

/-- Witness for `zeroPadded_refines_numbered` at a concrete
configuration. -/
theorem zeroPadded_refines_numbered_witness :
    (Generator.next 0
        ⟨[("a".toList)], [("b".toList)], .zeroPaddedNumbered 2 .dash,
          .lowercase .dash, Length.none, rng0⟩).1 =
      (Generator.next 0
        ⟨[("a".toList)], [("b".toList)], .numbered 2 .dash,
          .lowercase .dash, Length.none, rng0⟩).1
    ∧ (Generator.next 0
        ⟨[("a".toList)], [("b".toList)], .zeroPaddedNumbered 2 .dash,
          .lowercase .dash, Length.none, rng0⟩).2.rng =
      (Generator.next 0
        ⟨[("a".toList)], [("b".toList)], .numbered 2 .dash,
          .lowercase .dash, Length.none, rng0⟩).2.rng :=
  zeroPadded_refines_numbered 0 [("a".toList)] [("b".toList)]
    (.lowercase .dash) Length.none rng0 2 .dash (by decide) (by decide)

end NamesCrate
